import Mathlib

/-!
Shallow embedding of the Genomic-Analysis-Tool repository
(`Genomic_Analysis_Tool.py`, `Genomic_Anlysis_Tool_V2.py`, `Analysis_Plot.py`).

The embedded parts are the coordinate parser `parse_genomic_coordinate`
(the regex `^(chr\d+):(\d+)-(\d+)_(\S+)$` followed by `int()` conversion of
the two digit groups), the exon-edge inference `identify_exon_edges`
(tab/newline splitting of the feed, stable sort by junction start, and the
threshold scan over `current_start`/`current_end`), and the per-track
summation inside `measure_transcription_abundance`
(`sum(filter(lambda x: x is not None, values))`).

Python floats are modelled as rationals (ℚ); the claims only compare
coverage values against 0.5, where the two agree.  Python ints are
modelled as `Int` (unbounded, as in Python).  Character classes `\d` and
`\S` are modelled on their ASCII fragment: `Char.isDigit` for `\d`, and
for `\S` the complement of the full ASCII whitespace class of Python's
`re` module (space, tab, newline, carriage return, vertical tab, form
feed — `pyWhitespace` below); the repository only feeds ASCII coordinate
strings.
-/

/-- A junction record `(int(j[3]), int(j[4]), float(j[14]))` extracted from
one tab-separated feed line. -/
structure JunctionRecord where
  start : Int
  «end» : Int
  coverage : ℚ
deriving DecidableEq, Repr

/-- The sort `junctions.sort(key=lambda x: x[0])`: Python uses a stable
list sort keyed on the junction start, modelled by the (stable)
`List.mergeSort`. -/
def sortJunctions (junctions : List JunctionRecord) : List JunctionRecord :=
  junctions.mergeSort (fun a b => a.start ≤ b.start)

/-- The scan loop of `identify_exon_edges`.  The state is the pair
`current_start`, `current_end`: in the source both are `None` or both are
set (they are always assigned and reset together), so the state is one
`Option (Int × Int)`.  A record with `coverage > 0.5` opens an interval at
its start if none is open and unconditionally overwrites `current_end`
with its end; otherwise an open interval is closed and appended. -/
def inferLoop : Option (Int × Int) → List JunctionRecord → List (Int × Int)
  | none, [] => []
  | some (cs, ce), [] => [(cs, ce)]
  | none, r :: rs =>
      if r.coverage > 0.5 then
        inferLoop (some (r.start, r.«end»)) rs
      else
        inferLoop none rs
  | some (cs, ce), r :: rs =>
      if r.coverage > 0.5 then
        inferLoop (some (cs, r.«end»)) rs
      else
        (cs, ce) :: inferLoop none rs

/-- The Exon Edge Inference Engine of the spec (`infer_exon_edges`): the
sort-then-scan core of `identify_exon_edges`, taken at the record level. -/
def infer_exon_edges (records : List JunctionRecord) : List (Int × Int) :=
  inferLoop none (sortJunctions records)

/-- Base-10 value of a digit string, as computed by Python `int()` on a
string of ASCII digits. -/
def digitsToNat (ds : List Char) : Nat :=
  ds.foldl (fun n c => n * 10 + (c.toNat - '0'.toNat)) 0

/-- The ASCII whitespace class of Python's `re` module, `[ \t\n\r\v\f]`:
the characters that `\s` matches and `\S` rejects among ASCII.  Unlike
`Char.isWhitespace`, this includes the vertical tab and the form feed. -/
def pyWhitespace (c : Char) : Bool :=
  c = ' ' || c = '\t' || c = '\n' || c = '\r' || c = '\x0b' || c = '\x0c'

/-- Model of `re.match(r'^(chr\d+):(\d+)-(\d+)_(\S+)$', s)` together with
the group extraction and `int()` conversions shared by all three source
files: on a match it returns
`(match.group(1), int(match.group(2)), int(match.group(3)), match.group(4))`.
Each `\d+`/`\S+` is greedy; since a digit is never `:`/`-`/`_` and a
non-whitespace character can never begin the tail that `$` accepts, the
greedy match is the only possible one, so maximal-munch `takeWhile` is
faithful.  Python `$` also matches just before one trailing newline, hence
the final `[] ∨ [newline]` test. -/
def matchCoordinate (s : String) : Option (String × Int × Int × String) :=
  match s.data with
  | 'c' :: 'h' :: 'r' :: rest =>
    let d1 := rest.takeWhile Char.isDigit
    let r1 := rest.dropWhile Char.isDigit
    if d1 = [] then none else
    match r1 with
    | ':' :: r2 =>
      let d2 := r2.takeWhile Char.isDigit
      let r3 := r2.dropWhile Char.isDigit
      if d2 = [] then none else
      match r3 with
      | '-' :: r4 =>
        let d3 := r4.takeWhile Char.isDigit
        let r5 := r4.dropWhile Char.isDigit
        if d3 = [] then none else
        match r5 with
        | '_' :: r6 =>
          let t := r6.takeWhile (fun c => !pyWhitespace c)
          let r7 := r6.dropWhile (fun c => !pyWhitespace c)
          if t = [] then none
          else if r7 = [] ∨ r7 = ['\n'] then
            some (String.mk ('c' :: 'h' :: 'r' :: d1),
              (digitsToNat d2 : Int), (digitsToNat d3 : Int), String.mk t)
          else none
        | _ => none
      | _ => none
    | _ => none
  | _ => none

/-- Outcome of the script-level `parse_genomic_coordinate` in
`Genomic_Analysis_Tool.py` / `Genomic_Anlysis_Tool_V2.py`: either the
parsed tuple, or a whole-process exit (`sys.exit(1)` after printing
"Invalid genomic coordinate format"). -/
inductive ParseOutcome where
  | ok : String → Int → Int → String → ParseOutcome
  | exit : Nat → ParseOutcome
deriving DecidableEq, Repr

/-- `parse_genomic_coordinate` of `Genomic_Analysis_Tool.py` (identical in
`Genomic_Anlysis_Tool_V2.py`): returns the tuple on a match, exits the
process with status 1 on a non-match. -/
def parse_genomic_coordinate (genomic_coordinate : String) : ParseOutcome :=
  match matchCoordinate genomic_coordinate with
  | some (chromosome, start, «end», strand) => ParseOutcome.ok chromosome start «end» strand
  | none => ParseOutcome.exit 1

/-- `parse_genomic_coordinate` of `Analysis_Plot.py`: same regex, but on a
non-match it prints a message and returns `None` (carrying nothing). -/
def parse_genomic_coordinate_plot (genomic_coordinate : String) :
    Option (String × Int × Int × String) :=
  matchCoordinate genomic_coordinate

/-- Model of Python `int(str)` on the decimal fragment: optional
surrounding whitespace, an optional sign, then one or more ASCII digits.
`none` models the `ValueError`.  (Digit-grouping underscores and
non-ASCII digits are outside the modelled fragment; the feed only
carries plain decimal fields.) -/
def pyInt (s : String) : Option Int :=
  match s.trim.data with
  | '-' :: ds =>
      if ds ≠ [] ∧ ds.all Char.isDigit then some (-(digitsToNat ds : Int)) else none
  | '+' :: ds =>
      if ds ≠ [] ∧ ds.all Char.isDigit then some (digitsToNat ds : Int) else none
  | ds =>
      if ds ≠ [] ∧ ds.all Char.isDigit then some (digitsToNat ds : Int) else none

/-- Unsigned part of Python `float(str)` on the plain decimal fragment:
digits with an optional point and fractional digits (`"12"`, `"12."`,
`"12.5"`, `".5"`).  Exponents and the `inf`/`nan` spellings are outside
the modelled fragment; the coverage field of the feed is plain decimal. -/
def pyFloatCore (ds : List Char) : Option ℚ :=
  let ip := ds.takeWhile Char.isDigit
  let rest := ds.dropWhile Char.isDigit
  match rest with
  | [] => if ip = [] then none else some (digitsToNat ip : ℚ)
  | '.' :: fs =>
      if fs.all Char.isDigit ∧ (ip ≠ [] ∨ fs ≠ []) then
        some ((digitsToNat ip : ℚ) + (digitsToNat fs : ℚ) / (10 : ℚ) ^ fs.length)
      else none
  | _ => none

/-- Model of Python `float(str)` on the plain decimal fragment: optional
surrounding whitespace and an optional sign around `pyFloatCore`.
`none` models the `ValueError`. -/
def pyFloat (s : String) : Option ℚ :=
  match s.trim.data with
  | '-' :: ds => (pyFloatCore ds).map (fun q => -q)
  | '+' :: ds => pyFloatCore ds
  | ds => pyFloatCore ds

set_option linter.unusedVariables false in
/-- The full `identify_exon_edges(genomic_coordinate, junction_data)`:
strip the feed, drop the header line, split each line on tabs, convert
fields 3, 4 and 14, then sort and scan.  `none` models the exception
Python raises on a missing field or a failed conversion (`IndexError` /
`ValueError`), which propagates to the caller.  The `genomic_coordinate`
parameter is accepted but never read, exactly as in the source. -/
def identify_exon_edges (genomic_coordinate : String) (junction_data : String) :
    Option (List (Int × Int)) := do
  let lines := (junction_data.trim.splitOn "\n").drop 1
  let rows := lines.map (fun line => line.splitOn "\t")
  let junctions ← rows.mapM (fun j => do
    let f3 ← j[3]?
    let f4 ← j[4]?
    let f14 ← j[14]?
    let s ← pyInt f3
    let e ← pyInt f4
    let c ← pyFloat f14
    pure (⟨s, e, c⟩ : JunctionRecord))
  pure (infer_exon_edges junctions)

/-- The per-track summation of `measure_transcription_abundance`
(the `sum_abundance` contract of the spec):
`sum(filter(lambda x: x is not None, values)) if values else 0`.
`none` models a position reported as Python `None`; `sum` folds `+` from
the left starting at `0`. -/
def sum_abundance (values : List (Option ℚ)) : ℚ :=
  if values = [] then 0
  else (values.filterMap id).foldl (· + ·) 0
theorem inferLoop_none_of_below : ∀ (rs : List JunctionRecord),
    (∀ r ∈ rs, ¬ (0.5 : ℚ) < r.coverage) → inferLoop none rs = []
  | [], _ => rfl
  | r :: rs, h => by
    simp only [inferLoop, gt_iff_lt, if_neg (h r (List.mem_cons_self r rs))]
    exact inferLoop_none_of_below rs (fun x hx => h x (List.mem_cons_of_mem r hx))

/-- C1: when an interval is open and a record qualifies, the running end is
unconditionally overwritten by that record's end; in particular the sorted
records (100,300,1.0), (110,120,1.0) yield exactly the edge (100,120). -/
theorem exon_overwrite_end :
    (∀ (cs ce : Int) (r : JunctionRecord) (rs : List JunctionRecord),
        (0.5 : ℚ) < r.coverage →
        inferLoop (some (cs, ce)) (r :: rs) = inferLoop (some (cs, r.«end»)) rs)
    ∧ infer_exon_edges [⟨100, 300, 1⟩, ⟨110, 120, 1⟩] = [(100, 120)] := by
  constructor
  · intro cs ce r rs h
    simp only [inferLoop, gt_iff_lt, if_pos h]
  · have hs : sortJunctions [⟨100, 300, 1⟩, ⟨110, 120, 1⟩] = [⟨100, 300, 1⟩, ⟨110, 120, 1⟩] :=
      List.mergeSort_of_sorted (by decide)
    rw [infer_exon_edges, hs]
    norm_num [inferLoop]

theorem exon_overwrite_end_witness :
    (0.5 : ℚ) < (1 : ℚ) ∧
      inferLoop (some (0, 999)) [⟨5, 7, 1⟩] = inferLoop (some (0, 7)) [] :=
  ⟨by norm_num, exon_overwrite_end.1 0 999 ⟨5, 7, 1⟩ [] (by norm_num)⟩

/-- C2: the coverage test is strictly greater than 0.5: a record with
coverage exactly 0.5 never opens or extends an interval (it takes the
non-qualifying branch), while coverage 0.50001 opens or extends one. -/
theorem exon_threshold_strict :
    (∀ (r : JunctionRecord) (rs : List JunctionRecord), r.coverage = 0.5 →
        inferLoop none (r :: rs) = inferLoop none rs)
    ∧ (∀ (cs ce : Int) (r : JunctionRecord) (rs : List JunctionRecord), r.coverage = 0.5 →
        inferLoop (some (cs, ce)) (r :: rs) = (cs, ce) :: inferLoop none rs)
    ∧ (∀ (r : JunctionRecord) (rs : List JunctionRecord), r.coverage = 0.50001 →
        inferLoop none (r :: rs) = inferLoop (some (r.start, r.«end»)) rs)
    ∧ (∀ (cs ce : Int) (r : JunctionRecord) (rs : List JunctionRecord), r.coverage = 0.50001 →
        inferLoop (some (cs, ce)) (r :: rs) = inferLoop (some (cs, r.«end»)) rs) := by
  refine ⟨?_, ?_, ?_, ?_⟩
  · intro r rs h
    simp only [inferLoop, gt_iff_lt, if_neg (by rw [h]; norm_num : ¬ (0.5 : ℚ) < r.coverage)]
  · intro cs ce r rs h
    simp only [inferLoop, gt_iff_lt, if_neg (by rw [h]; norm_num : ¬ (0.5 : ℚ) < r.coverage)]
  · intro r rs h
    simp only [inferLoop, gt_iff_lt, if_pos (by rw [h]; norm_num : (0.5 : ℚ) < r.coverage)]
  · intro cs ce r rs h
    simp only [inferLoop, gt_iff_lt, if_pos (by rw [h]; norm_num : (0.5 : ℚ) < r.coverage)]

theorem exon_threshold_strict_witness :
    inferLoop none [⟨0, 1, 0.5⟩] = inferLoop none [] ∧
      inferLoop none [⟨0, 1, 0.50001⟩] = inferLoop (some (0, 1)) [] :=
  ⟨exon_threshold_strict.1 ⟨0, 1, 0.5⟩ [] rfl,
   exon_threshold_strict.2.2.1 ⟨0, 1, 0.50001⟩ [] rfl⟩

/-- C5: if no record has coverage strictly greater than 0.5 — including
the empty record sequence — the engine returns the empty edge list. -/
theorem exon_none_above_threshold (records : List JunctionRecord)
    (h : ∀ r ∈ records, ¬ (0.5 : ℚ) < r.coverage) :
    infer_exon_edges records = [] := by
  rw [infer_exon_edges]
  apply inferLoop_none_of_below
  intro r hr
  simp only [sortJunctions, List.mem_mergeSort] at hr
  exact h r hr

theorem exon_none_above_threshold_witness :
    infer_exon_edges [] = [] ∧ infer_exon_edges [⟨1, 2, 0.5⟩] = [] :=
  ⟨exon_none_above_threshold [] (by simp),
   exon_none_above_threshold [⟨1, 2, 0.5⟩]
     (by intro r hr; rw [List.mem_singleton] at hr; subst hr; norm_num)⟩
theorem inferLoop_some_of_all_above : ∀ (rs : List JunctionRecord) (cs ce : Int),
    (∀ r ∈ rs, (0.5 : ℚ) < r.coverage) →
    inferLoop (some (cs, ce)) rs = [(cs, rs.foldl (fun _ r => r.«end») ce)]
  | [], cs, ce, _ => rfl
  | r :: rs, cs, ce, h => by
    simp only [inferLoop, gt_iff_lt, if_pos (h r (List.mem_cons_self r rs)), List.foldl_cons]
    exact inferLoop_some_of_all_above rs cs r.«end» (fun x hx => h x (List.mem_cons_of_mem r hx))

theorem foldl_end_eq_getLast : ∀ (rs : List JunctionRecord) (a : Int),
    rs.foldl (fun _ r => r.«end») a = ((rs.getLast?).map (fun r => r.«end»)).getD a
  | [], _ => rfl
  | r :: rs, a => by
    rw [List.foldl_cons, foldl_end_eq_getLast rs r.«end»]
    cases rs with
    | nil => rfl
    | cons x xs =>
      rw [List.getLast?_cons_cons]
      cases hrs : (x :: xs).getLast? with
      | none => simp at hrs
      | some y => rfl

/-- C4: on a non-empty record sequence in which every coverage exceeds
0.5, the engine returns exactly one edge, from the first sorted record's
start to the last sorted record's end (the overwrite rule); an interval
still open when the loop ends is closed and appended; and the sorted
records (100,150,1.0), (150,200,2.0), (200,250,0.3) yield exactly
(100,200). -/
theorem exon_all_above_threshold :
    (∀ (records : List JunctionRecord), records ≠ [] →
        (∀ r ∈ records, (0.5 : ℚ) < r.coverage) →
        ∃ rf rl, (sortJunctions records).head? = some rf ∧
          (sortJunctions records).getLast? = some rl ∧
          infer_exon_edges records = [(rf.start, rl.«end»)])
    ∧ (∀ cs ce : Int, inferLoop (some (cs, ce)) [] = [(cs, ce)])
    ∧ infer_exon_edges [⟨100, 150, 1⟩, ⟨150, 200, 2⟩, ⟨200, 250, 0.3⟩] = [(100, 200)] := by
  refine ⟨?_, fun cs ce => rfl, ?_⟩
  · intro records hne hall
    have hlen : (sortJunctions records).length = records.length := by
      simp [sortJunctions]
    have hsne : sortJunctions records ≠ [] := by
      intro hnil
      apply hne
      rw [← List.length_eq_zero, ← hlen, hnil]
      rfl
    obtain ⟨r0, rest, hcons⟩ := List.exists_cons_of_ne_nil hsne
    have hmem : ∀ r ∈ sortJunctions records, (0.5 : ℚ) < r.coverage := by
      intro r hr
      simp only [sortJunctions, List.mem_mergeSort] at hr
      exact hall r hr
    have h0 : (0.5 : ℚ) < r0.coverage := hmem r0 (by rw [hcons]; exact List.mem_cons_self r0 rest)
    have hrest : ∀ r ∈ rest, (0.5 : ℚ) < r.coverage := by
      intro r hr
      exact hmem r (by rw [hcons]; exact List.mem_cons_of_mem r0 hr)
    refine ⟨r0, (rest.getLast?.getD r0), ?_, ?_, ?_⟩
    · rw [hcons]; rfl
    · rw [hcons, List.getLast?_cons]
    · rw [infer_exon_edges, hcons]
      simp only [inferLoop, gt_iff_lt, if_pos h0]
      rw [inferLoop_some_of_all_above rest r0.start r0.«end» hrest,
        foldl_end_eq_getLast]
      cases hr : rest.getLast? with
      | none => rfl
      | some x => rfl
  · have hs : sortJunctions [⟨100, 150, 1⟩, ⟨150, 200, 2⟩, ⟨200, 250, 0.3⟩]
        = [⟨100, 150, 1⟩, ⟨150, 200, 2⟩, ⟨200, 250, 0.3⟩] :=
      List.mergeSort_of_sorted (by decide)
    rw [infer_exon_edges, hs]
    norm_num [inferLoop]

theorem exon_all_above_threshold_witness :
    ∃ rf rl, (sortJunctions [⟨3, 9, 1⟩]).head? = some rf ∧
      (sortJunctions [⟨3, 9, 1⟩]).getLast? = some rl ∧
      infer_exon_edges [⟨3, 9, 1⟩] = [(rf.start, rl.«end»)] :=
  exon_all_above_threshold.1 [⟨3, 9, 1⟩] (by simp)
    (by intro r hr; rw [List.mem_singleton] at hr; subst hr; norm_num)

/-- C9: the abundance of a coverage sequence is the sum of its present
values, each absent value contributing zero; the empty sequence yields 0;
and the sequence 5, absent, 3, absent sums to 8. -/
theorem abundance_sum_spec :
    (∀ values : List (Option ℚ),
        sum_abundance values = (values.map (fun v => v.getD 0)).foldl (· + ·) 0)
    ∧ sum_abundance [] = 0
    ∧ sum_abundance [some 5, none, some 3, none] = 8 := by
  have key : ∀ (values : List (Option ℚ)) (a : ℚ),
      (values.filterMap id).foldl (· + ·) a = (values.map (fun v => v.getD 0)).foldl (· + ·) a := by
    intro values
    induction values with
    | nil => intro a; rfl
    | cons v vs ih =>
      intro a
      cases v with
      | none => simp only [List.filterMap_cons, id, List.map_cons, List.foldl_cons,
          Option.getD_none, add_zero, ih]
      | some q => simp only [List.filterMap_cons, id, List.map_cons, List.foldl_cons,
          Option.getD_some, ih]
  refine ⟨?_, rfl, ?_⟩
  · intro values
    rw [sum_abundance]
    by_cases hv : values = []
    · subst hv; rfl
    · rw [if_neg hv, key]
  · rw [sum_abundance, if_neg (by simp)]
    norm_num [List.filterMap_cons, List.foldl_cons, List.foldl_nil]

/-- C10: the exon-edge result of `identify_exon_edges` does not depend on
the genomic coordinate argument, which is accepted but never read. -/
theorem exon_edges_coordinate_independent (c1 c2 d : String) :
    identify_exon_edges c1 d = identify_exon_edges c2 d := rfl
theorem junction_le_trans : ∀ (a b c : JunctionRecord),
    decide (a.start ≤ b.start) = true → decide (b.start ≤ c.start) = true →
    decide (a.start ≤ c.start) = true := by
  intro a b c hab hbc
  simp only [decide_eq_true_eq] at *
  omega

theorem junction_le_total : ∀ (a b : JunctionRecord),
    (decide (a.start ≤ b.start) || decide (b.start ≤ a.start)) = true := by
  intro a b
  simp only [Bool.or_eq_true, decide_eq_true_eq]
  omega

theorem inferLoop_sorted : ∀ (rs : List JunctionRecord),
    rs.Pairwise (fun a b => a.start ≤ b.start) →
    (∀ cs ce : Int, (∀ r ∈ rs, cs ≤ r.start) →
        (inferLoop (some (cs, ce)) rs).Pairwise (fun e f => e.1 ≤ f.1)
        ∧ ∀ e ∈ inferLoop (some (cs, ce)) rs, cs ≤ e.1)
    ∧ (∀ b : Int, (∀ r ∈ rs, b ≤ r.start) →
        (inferLoop none rs).Pairwise (fun e f => e.1 ≤ f.1)
        ∧ ∀ e ∈ inferLoop none rs, b ≤ e.1)
  | [], _ => by
    constructor
    · intro cs ce _
      simp only [inferLoop]
      refine ⟨List.pairwise_singleton _ _, ?_⟩
      intro e he
      rw [List.mem_singleton] at he
      subst he
      exact le_refl cs
    · intro b _
      simp only [inferLoop]
      exact ⟨List.Pairwise.nil, fun e he => absurd he (List.not_mem_nil e)⟩
  | r :: rs, hpair => by
    have htl : rs.Pairwise (fun a b => a.start ≤ b.start) := (List.pairwise_cons.mp hpair).2
    have hr : ∀ x ∈ rs, r.start ≤ x.start := (List.pairwise_cons.mp hpair).1
    have IH := inferLoop_sorted rs htl
    constructor
    · intro cs ce hcs
      by_cases hcov : (0.5 : ℚ) < r.coverage
      · rw [show inferLoop (some (cs, ce)) (r :: rs) = inferLoop (some (cs, r.«end»)) rs from by
          simp only [inferLoop, gt_iff_lt, if_pos hcov]]
        exact IH.1 cs r.«end» (fun x hx => hcs x (List.mem_cons_of_mem r hx))
      · rw [show inferLoop (some (cs, ce)) (r :: rs) = (cs, ce) :: inferLoop none rs from by
          simp only [inferLoop, gt_iff_lt, if_neg hcov]]
        obtain ⟨htp, hbd⟩ := IH.2 r.start hr
        have hcr : cs ≤ r.start := hcs r (List.mem_cons_self r rs)
        constructor
        · rw [List.pairwise_cons]
          exact ⟨fun e he => le_trans hcr (hbd e he), htp⟩
        · intro e he
          rw [List.mem_cons] at he
          cases he with
          | inl h => subst h; exact le_refl cs
          | inr h => exact le_trans hcr (hbd e h)
    · intro b hb
      by_cases hcov : (0.5 : ℚ) < r.coverage
      · rw [show inferLoop none (r :: rs) = inferLoop (some (r.start, r.«end»)) rs from by
          simp only [inferLoop, gt_iff_lt, if_pos hcov]]
        obtain ⟨htp, hbd⟩ := IH.1 r.start r.«end» hr
        exact ⟨htp, fun e he => le_trans (hb r (List.mem_cons_self r rs)) (hbd e he)⟩
      · rw [show inferLoop none (r :: rs) = inferLoop none rs from by
          simp only [inferLoop, gt_iff_lt, if_neg hcov]]
        exact IH.2 b (fun x hx => hb x (List.mem_cons_of_mem r hx))

/-- C3: the engine sorts ascending by start with a stable sort (the sorted
list is a permutation of the input, is pairwise ordered by start, and
records with equal start keep their original relative order), and the
returned edge list, produced by the scan over the sorted records, is
ascending in each edge's opening start. -/
theorem exon_sort_and_output_order (records : List JunctionRecord) :
    infer_exon_edges records = inferLoop none (sortJunctions records)
    ∧ (sortJunctions records).Perm records
    ∧ (sortJunctions records).Pairwise (fun a b => a.start ≤ b.start)
    ∧ (∀ n : Int, (sortJunctions records).filter (fun r => r.start = n)
        = records.filter (fun r => r.start = n))
    ∧ (infer_exon_edges records).Pairwise (fun e f => e.1 ≤ f.1) := by
  have hsorted : (sortJunctions records).Pairwise (fun a b => a.start ≤ b.start) := by
    have h := @List.sorted_mergeSort JunctionRecord
      (fun a b => decide (a.start ≤ b.start)) junction_le_trans junction_le_total records
    exact h.imp (fun hab => of_decide_eq_true hab)
  refine ⟨rfl, ?_, hsorted, ?_, ?_⟩
  · exact List.mergeSort_perm records _
  · intro n
    have hsub : List.Sublist (records.filter (fun r => decide (r.start = n))) records :=
      List.filter_sublist records
    have hmem : ∀ x ∈ records.filter (fun r => decide (r.start = n)), x.start = n := by
      intro x hx
      have := List.of_mem_filter hx
      simpa using this
    have hpairf : (records.filter (fun r => decide (r.start = n))).Pairwise
        (fun a b => decide (a.start ≤ b.start) = true) := by
      apply List.pairwise_of_forall_mem_list
      intro a ha b hb
      rw [decide_eq_true_eq, hmem a ha, hmem b hb]
    have hsl : List.Sublist (records.filter (fun r => decide (r.start = n)))
        (records.mergeSort (fun a b => decide (a.start ≤ b.start))) :=
      List.sublist_mergeSort junction_le_trans junction_le_total hpairf hsub
    have hsl2 := List.Sublist.filter (fun r => decide (r.start = n)) hsl
    rw [List.filter_filter] at hsl2
    simp only [Bool.and_self] at hsl2
    have hperm : List.Perm
        ((records.mergeSort (fun a b => decide (a.start ≤ b.start))).filter
          (fun r => decide (r.start = n)))
        (records.filter (fun r => decide (r.start = n))) :=
      (List.mergeSort_perm records _).filter _
    have hlen : (records.filter (fun r => decide (r.start = n))).length
        = ((records.mergeSort (fun a b => decide (a.start ≤ b.start))).filter
            (fun r => decide (r.start = n))).length := hperm.length_eq.symm
    exact (hsl2.eq_of_length hlen).symm
  · rw [infer_exon_edges]
    cases hs : sortJunctions records with
    | nil => exact List.Pairwise.nil
    | cons r0 rest =>
      have hp : (r0 :: rest).Pairwise (fun a b => a.start ≤ b.start) := hs ▸ hsorted
      have hb : ∀ x ∈ r0 :: rest, r0.start ≤ x.start := by
        intro x hx
        rw [List.mem_cons] at hx
        cases hx with
        | inl h => subst h; exact le_refl _
        | inr h => exact (List.pairwise_cons.mp hp).1 x h
      exact ((inferLoop_sorted (r0 :: rest) hp).2 r0.start hb).1
/-- C7: on the non-matching input "badstring" the parser does not surface
a typed failure carrying the input to its caller: the Tool versions exit
the whole process with status 1, and the Analysis_Plot version returns
None carrying nothing. -/
theorem coordinate_parse_failure_exits :
    parse_genomic_coordinate "badstring" = ParseOutcome.exit 1
    ∧ parse_genomic_coordinate_plot "badstring" = none := by
  exact ⟨by decide, by decide⟩

/-- C8 counterexample: the parser accepts a locus whose start exceeds its
end, so a successful parse does not guarantee start ≤ end. -/
theorem locus_invariant_counterexample :
    matchCoordinate "chr1:500-100_+" = some ("chr1", 500, 100, "+")
    ∧ ¬ ((500 : Int) ≤ 100) := by
  exact ⟨by decide, by decide⟩

/-- C8 amended: a successful parse guarantees only that start and end are
the non-negative base-10 values of the two digit groups; it performs no
ordering check, and inputs with start greater than end are accepted. -/
theorem locus_start_end_unchecked :
    (∀ (s chrom strand : String) (st en : Int),
        matchCoordinate s = some (chrom, st, en, strand) → 0 ≤ st ∧ 0 ≤ en)
    ∧ ∃ (s chrom strand : String) (st en : Int),
        matchCoordinate s = some (chrom, st, en, strand) ∧ en < st := by
  constructor
  · intro s chrom strand st en h
    unfold matchCoordinate at h
    dsimp only at h
    repeat' split at h
    any_goals exact Option.noConfusion h
    simp only [Option.some.injEq, Prod.mk.injEq] at h
    obtain ⟨-, hst, hen, -⟩ := h
    subst hst
    subst hen
    exact ⟨Int.natCast_nonneg _, Int.natCast_nonneg _⟩
  · exact ⟨"chr1:500-100_+", "chr1", "+", 500, 100, by decide, by decide⟩

theorem locus_start_end_unchecked_witness :
    (0 : Int) ≤ 500 ∧ (0 : Int) ≤ 100 :=
  locus_start_end_unchecked.1 "chr1:500-100_+" "chr1" "+" 500 100 (by decide)
